import Mathlib

/-!
Verification of the template-filename expansion engine.

The engine (processTemplate in src/main.ts) rewrites a template string by an
ordered sequence of substitution passes: date and time letter tokens, then
curly-brace token families (random, timestamps, identifiers, counters, system
variables, text formatting, clipboard). Strings are modelled as List Char.
JavaScript regular-expression passes of the shape
  while ((match = re.exec(copy)) !== null) result = result.replace(match[0], rep)
are modelled by a scanner over the frozen copy producing the match list in
order, followed by a left fold that replaces the first occurrence of each full
match text. Global replaces re.replace(/pat/g, rep) are modelled by a
non-overlapping left-to-right replace-all. Randomness sources (Math.random)
are modelled as explicit streams passed to the functions that consume them.
-/

/-! ## Character helpers -/

/-- Decimal digit test, the regex class of the d escape. -/
def isDigitB (c : Char) : Bool := decide ('0' ≤ c ∧ c ≤ '9')

/-- Character class for parameters matched by the regex class excluding the
closing brace. -/
def neCloseB (c : Char) : Bool := decide (c ≠ '}')

/-- ASCII lower-casing of one character, the model of toLowerCase. -/
def charLower (c : Char) : Char :=
  if 'A' ≤ c ∧ c ≤ 'Z' then Char.ofNat (c.toNat + 32) else c

/-- ASCII upper-casing of one character, the model of toUpperCase. -/
def charUpper (c : Char) : Char :=
  if 'a' ≤ c ∧ c ≤ 'z' then Char.ofNat (c.toNat - 32) else c

/-- ASCII whitespace, the model of the regex class of the s escape and of the
characters removed by trim. -/
def isWsB (c : Char) : Bool :=
  c == ' ' || c == Char.ofNat 9 || c == Char.ofNat 10 || c == Char.ofNat 13 ||
  c == Char.ofNat 11 || c == Char.ofNat 12

/-- The regex word-character class: letters, digits and underscore. -/
def isWordB (c : Char) : Bool :=
  decide (('a' ≤ c ∧ c ≤ 'z') ∨ ('A' ≤ c ∧ c ≤ 'Z') ∨ ('0' ≤ c ∧ c ≤ '9') ∨ c = '_')

/-- Characters kept by the slugify removal step: word characters and hyphen. -/
def isWordOrHyphenB (c : Char) : Bool := isWordB c || c == '-'

/-- Hyphen test. -/
def isHyphenB (c : Char) : Bool := c == '-'

/-- Digit character for a value below 36, as produced by Number.toString with
a radix: 0-9 then lowercase a-z. -/
def toDigitChar (n : Nat) : Char :=
  if n < 10 then Char.ofNat (48 + n) else Char.ofNat (87 + n)

/-- Numeric value of a base-36 digit character, used to parse rendered
numbers back. -/
def digVal (c : Char) : Option Nat :=
  if '0' ≤ c ∧ c ≤ '9' then some (c.toNat - 48)
  else if 'a' ≤ c ∧ c ≤ 'z' then some (c.toNat - 87)
  else none

/-- Value of a nonempty decimal digit string, the model of parseInt applied
to a match of the digit-string capture group. -/
def decVal (s : List Char) : Nat :=
  s.foldl (fun a ch => 10 * a + (ch.toNat - 48)) 0

/-! ## Base rendering and parsing -/

/-- Fuel-driven rendering of a natural number in base b with lowercase
digits, the model of Number.prototype.toString(b) for nonnegative integers.
The fuel only drives termination; any fuel above the argument is enough. -/
def natToBaseF (b : Nat) : Nat → Nat → List Char
  | 0, _ => []
  | fuel + 1, n =>
    if n < b then [toDigitChar n]
    else natToBaseF b fuel (n / b) ++ [toDigitChar (n % b)]

/-- Rendering of a natural number in base b, most significant digit first. -/
def natToBase (b n : Nat) : List Char := natToBaseF b (n + 1) n

/-- Decimal rendering, the model of Number.prototype.toString(). -/
def natDec (n : Nat) : List Char := natToBase 10 n

/-- One step of base-b integer parsing. -/
def parseStep (b : Nat) (acc : Option Nat) (ch : Char) : Option Nat :=
  match acc with
  | none => none
  | some a =>
    match digVal ch with
    | none => none
    | some d => if d < b then some (b * a + d) else none

/-- Base-b integer parsing of a digit string: the reference parse-back used
to state the round-trip property of rendered timestamps. -/
def parseBase (b : Nat) (s : List Char) : Option Nat :=
  if s.isEmpty then none else s.foldl (parseStep b) (some 0)

/-! ## The hash function (createHash in src/main.ts) -/

/-- Wrap an integer to the signed 32-bit range, the effect of the JavaScript
expression hash and hash (bitwise and of a number with itself). -/
def toInt32 (n : Int) : Int := (n + 2147483648) % 4294967296 - 2147483648

/-- One loop iteration of createHash: hash = ((hash shifted left by 5) minus
hash) plus the character code, then wrapped to 32 bits. The shift itself also
wraps to 32 bits before the subtraction. -/
def hashStep (h : Int) (code : Nat) : Int :=
  toInt32 (toInt32 (h * 32) - h + code)

/-- createHash from src/main.ts: fold hashStep over the character codes
starting from 0, then render the absolute value in base 16. -/
def createHash (s : List Char) : List Char :=
  natToBase 16 (s.foldl (fun h ch => hashStep h ch.toNat) 0).natAbs

/-- Reference step stated by the spec: hash times 31 plus the character code,
wrapped to a signed 32-bit integer. -/
def hashStepSpec (h : Int) (code : Nat) : Int := toInt32 (h * 31 + code)

/-- Reference hash stated by the spec: fold the 31-multiplier polynomial step
with 32-bit wrapping, take the absolute value, render in base 16. -/
def createHashSpec (s : List Char) : List Char :=
  natToBase 16 (s.foldl (fun h ch => hashStepSpec h ch.toNat) 0).natAbs

/-! ## slugify (src/main.ts) -/

/-- Replace every maximal run of characters satisfying q by the single
character c0. Models a global regex replace of one-or-more runs. The flag
records whether the previous character was inside a run. -/
def collapseRuns (q : Char → Bool) (c0 : Char) : Bool → List Char → List Char
  | _, [] => []
  | inRun, x :: xs =>
    if q x then
      if inRun then collapseRuns q c0 true xs
      else c0 :: collapseRuns q c0 true xs
    else x :: collapseRuns q c0 false xs

/-- Strip whitespace from both ends, the model of String.prototype.trim. -/
def trimWs (s : List Char) : List Char :=
  ((s.dropWhile isWsB).reverse.dropWhile isWsB).reverse

/-- Replace each ampersand by the five characters -and-, keeping everything
else. -/
def expandAmp (s : List Char) : List Char :=
  s.flatMap fun c => if c = '&' then "-and-".data else [c]

/-- slugify from src/main.ts: lowercase, trim, whitespace runs to single
hyphens, ampersand to -and-, remove non word and non hyphen characters,
collapse hyphen runs, strip hyphens from both ends. -/
def slugify (t : List Char) : List Char :=
  let s1 := t.map charLower
  let s2 := trimWs s1
  let s3 := collapseRuns isWsB '-' false s2
  let s4 := expandAmp s3
  let s5 := s4.filter isWordOrHyphenB
  let s6 := collapseRuns isHyphenB '-' false s5
  let s7 := s6.dropWhile isHyphenB
  (s7.reverse.dropWhile isHyphenB).reverse

/-- Reference pipeline stated by the spec, in the order given there:
lowercase, trim, replace each whitespace run with a single hyphen, replace
each ampersand with -and-, remove all characters other than word characters
and hyphens, collapse repeated hyphens to one, and strip leading and
trailing hyphens. -/
def slugifySpec (t : List Char) : List Char :=
  let lowered := t.map charLower
  let trimmed := trimWs lowered
  let hyphenated := collapseRuns isWsB '-' false trimmed
  let anded := expandAmp hyphenated
  let cleaned := anded.filter isWordOrHyphenB
  let collapsed := collapseRuns isHyphenB '-' false cleaned
  let noLead := collapsed.dropWhile isHyphenB
  (noLead.reverse.dropWhile isHyphenB).reverse

/-! ## Clock reading -/

/-- The clock values read during one expansion call. The first eight fields
are the direct Date accessors (getFullYear, getMonth, getDate, getDay,
getHours, getMinutes, getSeconds, getMilliseconds). The last two carry the
values of the derived helpers getDayOfYear and getWeekNumber, whose Date
arithmetic is outside the scope of the claims; the date pass only renders
them. -/
structure Clock where
  year : Nat
  month0 : Nat
  date : Nat
  weekday : Nat
  hours : Nat
  mins : Nat
  secs : Nat
  ms : Nat
  dayOfYear : Nat
  weekNumber : Nat
deriving DecidableEq

/-- Seconds elapsed since local midnight, as computed for the daytime token:
hours times 3600 plus minutes times 60 plus seconds. -/
def secondsSinceMidnight (c : Clock) : Nat :=
  c.hours * 3600 + c.mins * 60 + c.secs

/-! ## Generic string rewriting machinery

The curly-brace passes in src/main.ts all share one shape: a global regex
collects the matches of one token grammar over a frozen copy of the current
string, and a loop replaces, for each match in order, the first occurrence
of the full match text by a generated replacement. -/

/-- Full text of a parameterised token: an opening brace, the token name, a
colon, the parameter, and a closing brace. -/
def tokStr (name prm : List Char) : List Char :=
  '{' :: (name ++ ':' :: (prm ++ ['}']))

/-- Full text of a bare token: an opening brace, the name and a closing
brace. -/
def plainTok (name : List Char) : List Char := '{' :: (name ++ ['}'])

/-- Replace the first occurrence of pat in a string, if any; the model of
String.prototype.replace with a plain string pattern. -/
def replaceFirst (pat rep : List Char) : List Char → List Char
  | [] => []
  | c :: rest =>
    if pat.isPrefixOf (c :: rest) then rep ++ (c :: rest).drop pat.length
    else c :: replaceFirst pat rep rest

/-- Fuel-driven non-overlapping left-to-right replace-all; the model of a
global regex replace with a fixed literal pattern. Scanning continues after
each match, so replacement text is never rescanned. Fuel at least the length
of the string is always enough. -/
def replaceAllF (pat rep : List Char) : Nat → List Char → List Char
  | 0, s => s
  | _ + 1, [] => []
  | fuel + 1, c :: rest =>
    if pat.isPrefixOf (c :: rest) then
      rep ++ replaceAllF pat rep fuel ((c :: rest).drop pat.length)
    else c :: replaceAllF pat rep fuel rest

/-- Replace all non-overlapping occurrences of pat, leftmost first. -/
def replaceAll (pat rep s : List Char) : List Char := replaceAllF pat rep s.length s

/-- Does pat occur as a contiguous substring. -/
def hasOcc (pat : List Char) : List Char → Bool
  | [] => pat.isEmpty
  | c :: rest => pat.isPrefixOf (c :: rest) || hasOcc pat rest

/-- Strip an exact prefix, returning the remainder. -/
def stripPfx : List Char → List Char → Option (List Char)
  | [], s => some s
  | _ :: _, [] => none
  | c :: ps, d :: s => if c = d then stripPfx ps s else none

/-- Try to parse, at the start of s, a token of the given name whose
parameter is one or more characters satisfying p followed by a closing
brace; returns the parameter and the remainder after the token. This is the
anchored semantics of the regexes of shape open-brace name colon
one-or-more-of-p close-brace: the parameter class never matches the closing
brace, so the greedy run must be followed directly by one. -/
def parseTok (name : List Char) (p : Char → Bool) (s : List Char) :
    Option (List Char × List Char) :=
  match stripPfx ('{' :: (name ++ [':'])) s with
  | none => none
  | some r =>
    if (r.takeWhile p).isEmpty then none
    else if (r.dropWhile p).head? = some '}' then some (r.takeWhile p, (r.dropWhile p).tail)
    else none

/-- Fuel-driven scan for all matches of one token grammar, left to right and
non-overlapping, continuing after each match: the model of repeated
RegExp.exec over a frozen copy. Returns the captured parameters in order. -/
def scanF (name : List Char) (p : Char → Bool) : Nat → List Char → List (List Char)
  | 0, _ => []
  | _ + 1, [] => []
  | fuel + 1, c :: rest =>
    match parseTok name p (c :: rest) with
    | some (prm, rest2) => prm :: scanF name p fuel rest2
    | none => scanF name p fuel rest

/-- All parameters of the token grammar matches in s, in order. -/
def scanTok (name : List Char) (p : Char → Bool) (s : List Char) : List (List Char) :=
  scanF name p s.length s

/-- The shared pass shape: scan a frozen copy for all matches, then for each
match in order replace the first occurrence of the full match text by a
generated replacement, threading generator state through the matches. -/
def scanReplace {σ : Type} (name : List Char) (p : Char → Bool)
    (gen : σ → List Char → List Char × σ) (st0 : σ) (t : List Char) :
    List Char × σ :=
  (scanTok name p t).foldl
    (fun acc prm =>
      let g := gen acc.2 prm
      (replaceFirst (tokStr name prm) g.1 acc.1, g.2))
    (t, st0)

/-- Pass shape whose generator may decline a match, in which case nothing is
replaced: used by the timestamp pass, which skips out-of-range bases. -/
def scanReplaceOpt {σ : Type} (name : List Char) (p : Char → Bool)
    (gen : σ → List Char → Option (List Char) × σ) (st0 : σ) (t : List Char) :
    List Char × σ :=
  (scanTok name p t).foldl
    (fun acc prm =>
      let g := gen acc.2 prm
      (match g.1 with
       | some rep => replaceFirst (tokStr name prm) rep acc.1
       | none => acc.1,
       g.2))
    (t, st0)

/-! ## Random pass (processRandomPlaceholders) -/

/-- The 62-character alphabet of generateRandomString. -/
def alphabetChars : List Char :=
  "ABCDEFGHIJKLMNOPQRSTUVWXYZabcdefghijklmnopqrstuvwxyz0123456789".data

/-- generateRandomString from src/main.ts: n characters chosen from the
62-character alphabet by successive draws of the random stream r, starting
at stream position k. -/
def generateRandomString (r : Nat → Fin 62) (k n : Nat) : List Char :=
  (List.range n).map fun i => alphabetChars.getD (r (k + i)).val 'A'

/-- Generator of the random pass: the parameter is the digit string N; the
replacement consumes decVal N draws of the stream. -/
def genRandom (r : Nat → Fin 62) : Nat → List Char → List Char × Nat :=
  fun k prm => (generateRandomString r k (decVal prm), k + decVal prm)

/-- processRandomPlaceholders from src/main.ts. -/
def processRandomPlaceholders (r : Nat → Fin 62) (k : Nat) (t : List Char) :
    List Char × Nat :=
  scanReplace "random".data isDigitB (genRandom r) k t

/-! ## Timestamp pass (processTimestampPlaceholders) -/

/-- Generator for the unixtime token: bases from 2 to 36 render the Unix
time, every other base declines the match. -/
def genUnix (ut : Nat) : Unit → List Char → Option (List Char) × Unit :=
  fun _ prm =>
    (if 2 ≤ decVal prm ∧ decVal prm ≤ 36 then some (natToBase (decVal prm) ut)
     else none, ())

/-- Generator for the daytime token: bases from 2 to 36 render the seconds
since midnight, every other base declines the match. -/
def genDaytime (c : Clock) : Unit → List Char → Option (List Char) × Unit :=
  fun _ prm =>
    (if 2 ≤ decVal prm ∧ decVal prm ≤ 36 then
       some (natToBase (decVal prm) (secondsSinceMidnight c))
     else none, ())

/-- processTimestampPlaceholders from src/main.ts: the unixtime loop over
the input, then the daytime loop over its result. -/
def processTimestampPlaceholders (ut : Nat) (c : Clock) (t : List Char) : List Char :=
  (scanReplaceOpt "daytime".data isDigitB (genDaytime c) ()
    (scanReplaceOpt "unixtime".data isDigitB (genUnix ut) () t).1).1

/-! ## Identifier pass (processIDPlaceholders) -/

/-- Core of generateUUID: walk the template string, replacing each x by a
random hex digit and each y by a digit whose variant bits are forced to
binary 10, threading the position in the random stream. -/
def generateUUIDGo (g : Nat → Fin 16) : Nat → List Char → List Char
  | _, [] => []
  | k, c :: rest =>
    if c = 'x' then toDigitChar (g k).val :: generateUUIDGo g (k + 1) rest
    else if c = 'y' then
      toDigitChar (((g k).val &&& 3) ||| 8) :: generateUUIDGo g (k + 1) rest
    else c :: generateUUIDGo g k rest

/-- generateUUID from src/main.ts, called once per identifier pass. -/
def generateUUID (g : Nat → Fin 16) : List Char :=
  generateUUIDGo g 0 ("xxxxxxxx-xxxx-4xxx-yxxx-xxxxxxxxxxxx".data)

/-- generateShortId from src/main.ts: Math.random().toString(36) followed by
substring(2, 10). The random float in the unit interval renders as the
character 0, a dot, and its base-36 fraction digits; the fraction digit
stream frac is the randomness-source input of the model. -/
def generateShortId (frac : List Char) : List Char :=
  (('0' :: '.' :: frac).drop 2).take 8

/-- Generator of the hash token loop. -/
def genHash : Unit → List Char → List Char × Unit := fun _ prm => (createHash prm, ())

/-- processIDPlaceholders from src/main.ts: one generated UUID replaces all
uuid tokens, one generated short identifier replaces all shortid tokens,
then the hash token loop runs. -/
def processIDPlaceholders (g : Nat → Fin 16) (frac t : List Char) : List Char :=
  let t1 := replaceAll (plainTok "uuid".data) (generateUUID g) t
  let t2 := replaceAll (plainTok "shortid".data) (generateShortId frac) t1
  (scanReplace "hash".data neCloseB genHash () t2).1

/-! ## Counter pass (processCounterPlaceholders) -/

/-- The mutable counter state of the plugin: the global counter starts at 1,
the named counters start empty. Named counters are modelled as an
association list with first-match lookup and in-place update. -/
structure CounterState where
  globalCounter : Nat
  namedCounters : List (List Char × Nat)
deriving DecidableEq

/-- First-match lookup in the named counter map. -/
def lookupCounter : List (List Char × Nat) → List Char → Option Nat
  | [], _ => none
  | (k, v) :: rest, nm => if k = nm then some v else lookupCounter rest nm

/-- Update or append a named counter. -/
def setCounter : List (List Char × Nat) → List Char → Nat → List (List Char × Nat)
  | [], nm, v => [(nm, v)]
  | (k, w) :: rest, nm, v =>
    if k = nm then (k, v) :: rest else (k, w) :: setCounter rest nm v

/-- Current value of a named counter as read by the source: absent or zero
entries are falsy and count as a fresh start at 1. -/
def counterVal (m : List (List Char × Nat)) (nm : List Char) : Nat :=
  match lookupCounter m nm with
  | none => 1
  | some 0 => 1
  | some (w + 1) => w + 1

/-- Generator of the named-counter loop. The parameter reset clears all
counter state and produces the empty replacement. Otherwise the counter is
initialised to 1 when absent or zero, mirroring the falsy check of the
source, its current value is the replacement, and it is incremented. -/
def genCounter : CounterState → List Char → List Char × CounterState :=
  fun st prm =>
    if prm = "reset".data then ([], ⟨1, []⟩)
    else
      let v := counterVal st.namedCounters prm
      (natDec v, ⟨st.globalCounter, setCounter st.namedCounters prm (v + 1)⟩)

/-- processCounterPlaceholders from src/main.ts: every bare counter token is
replaced by the current global counter value by one global replace, then the
global counter is incremented unconditionally, then the named-counter loop
runs over a frozen copy of the result. -/
def processCounterPlaceholders (st : CounterState) (t : List Char) :
    List Char × CounterState :=
  let t1 := replaceAll (plainTok "counter".data) (natDec st.globalCounter) t
  scanReplace "counter".data neCloseB genCounter ⟨st.globalCounter + 1, st.namedCounters⟩ t1

/-! ## System pass (processSystemPlaceholders) -/

/-- getSystemInfo from src/main.ts: fixed fallback literals. -/
def getSystemInfo (ty : List Char) : List Char :=
  if ty = "hostname".data then "device".data
  else if ty = "username".data then "user".data
  else []

/-- processSystemPlaceholders from src/main.ts. -/
def processSystemPlaceholders (t : List Char) : List Char :=
  replaceAll (plainTok "username".data) (getSystemInfo "username".data)
    (replaceAll (plainTok "hostname".data) (getSystemInfo "hostname".data) t)

/-! ## Text format pass (processTextFormatPlaceholders) -/

/-- Generator of the lowercase token loop. -/
def genLower : Unit → List Char → List Char × Unit := fun _ prm => (prm.map charLower, ())

/-- Generator of the uppercase token loop. -/
def genUpper : Unit → List Char → List Char × Unit := fun _ prm => (prm.map charUpper, ())

/-- Generator of the slugify token loop. -/
def genSlug : Unit → List Char → List Char × Unit := fun _ prm => (slugify prm, ())

/-- processTextFormatPlaceholders from src/main.ts: lowercase, then
uppercase, then slugify loops, each over a frozen copy of the previous
result. -/
def processTextFormatPlaceholders (t : List Char) : List Char :=
  (scanReplace "slugify".data neCloseB genSlug ()
    (scanReplace "uppercase".data neCloseB genUpper ()
      (scanReplace "lowercase".data neCloseB genLower () t).1).1).1

/-! ## Clipboard pass (processClipboardPlaceholders) -/

/-- Anchored parse of the clip token, whose digit parameter is optional:
either an immediate closing brace, or a colon, one or more digits and a
closing brace. -/
def parseClipTok (s : List Char) : Option (Option (List Char) × List Char) :=
  match stripPfx ('{' :: "clip".data) s with
  | none => none
  | some r =>
    match r with
    | '}' :: rest => some (none, rest)
    | ':' :: r2 =>
      (match r2.dropWhile isDigitB with
       | '}' :: rest2 =>
         if (r2.takeWhile isDigitB).isEmpty then none
         else some (some (r2.takeWhile isDigitB), rest2)
       | _ => none)
    | _ => none

/-- Fuel-driven scan for clip tokens. -/
def scanClipF : Nat → List Char → List (Option (List Char))
  | 0, _ => []
  | _ + 1, [] => []
  | fuel + 1, c :: rest =>
    match parseClipTok (c :: rest) with
    | some (oprm, rest2) => oprm :: scanClipF fuel rest2
    | none => scanClipF fuel rest

/-- All clip token parameters in s, in order. -/
def scanClip (s : List Char) : List (Option (List Char)) := scanClipF s.length s

/-- Full match text of a clip token. -/
def clipTokStr : Option (List Char) → List Char
  | none => plainTok "clip".data
  | some ds => tokStr "clip".data ds

/-- Split on single spaces, the model of String.prototype.split with a one
space separator. -/
def splitWords (s : List Char) : List (List Char) := s.splitOn ' '

/-- processClipboardPlaceholders from src/main.ts. The clipboard text is the
fixed placeholder string of the source. A clip token with a nonzero digit
parameter takes that many characters; a zero parameter is falsy in the
source and falls back, like the bare token, to the first word. A clipword
token takes the one-indexed word, or empty when out of range. -/
def processClipboardPlaceholders (t : List Char) : List Char :=
  let clipText := "clipboard-content".data
  let t2 := (scanClip t).foldl
    (fun res oprm =>
      let rep := match oprm with
        | some ds =>
          if decVal ds ≠ 0 then clipText.take (decVal ds)
          else (splitWords clipText).getD 0 []
        | none => (splitWords clipText).getD 0 []
      replaceFirst (clipTokStr oprm) rep res)
    t
  let wordsText := "clipboard content example".data
  (scanTok "clipword".data isDigitB t2).foldl
    (fun res prm =>
      let words := splitWords wordsText
      let rep :=
        if 1 ≤ decVal prm ∧ decVal prm ≤ words.length then words.getD (decVal prm - 1) []
        else []
      replaceFirst (tokStr "clipword".data prm) rep res)
    t2

/-! ## Date pass and full pipeline (processTemplate) -/

/-- Global replace of a single character when the following character is not
in the given set: the model of the regexes of shape letter followed by a
negative lookahead, applied globally. The lookahead inspects the original
following character and matches at end of string. -/
def replaceNF (c : Char) (bad : List Char) (rep : List Char) : List Char → List Char
  | [] => []
  | x :: xs =>
    if x == c && xs.head?.all fun y => ! bad.contains y then rep ++ replaceNF c bad rep xs
    else x :: replaceNF c bad rep xs

/-- Left pad with zeros to the given width, the model of padStart. -/
def padZero (w : Nat) (s : List Char) : List Char :=
  List.replicate (w - s.length) '0' ++ s

/-- The fixed month name table of getMonthName. -/
def monthNames : List (List Char) :=
  ["January".data, "February".data, "March".data, "April".data, "May".data,
   "June".data, "July".data, "August".data, "September".data, "October".data,
   "November".data, "December".data]

/-- getMonthName from src/main.ts; an out-of-range index falls through to
the string rendering of an undefined lookup. -/
def getMonthName (m : Nat) : List Char := monthNames.getD m "undefined".data

/-- The fixed day name table of getDayName, Sunday first. -/
def dayNames : List (List Char) :=
  ["Sunday".data, "Monday".data, "Tuesday".data, "Wednesday".data,
   "Thursday".data, "Friday".data, "Saturday".data]

/-- getDayName from src/main.ts. -/
def getDayName (d : Nat) : List Char := dayNames.getD d "undefined".data

/-- The date and time section of processTemplate: the exact chain of global
replaces of src/main.ts, in source order, against one clock reading. -/
def processDateTokens (c : Clock) (t : List Char) : List Char :=
  let r := replaceAll "YYYY".data (natDec c.year) t
  let r := replaceAll "YY".data ((natDec c.year).drop 2) r
  let r := replaceAll "MMMM".data (getMonthName c.month0) r
  let r := replaceAll "MMM".data ((getMonthName c.month0).take 3) r
  let r := replaceAll "MM".data (padZero 2 (natDec (c.month0 + 1))) r
  let r := replaceNF 'M' ['o', 'M'] (natDec (c.month0 + 1)) r
  let r := replaceAll "DDD".data (padZero 3 (natDec c.dayOfYear)) r
  let r := replaceAll "DD".data (padZero 2 (natDec c.date)) r
  let r := replaceNF 'D' ['a'] (natDec c.date) r
  let r := replaceAll "dddd".data (getDayName c.weekday) r
  let r := replaceAll "ddd".data ((getDayName c.weekday).take 3) r
  let r := replaceAll "WW".data (padZero 2 (natDec c.weekNumber)) r
  let r := replaceAll "Q".data (natDec (c.month0 / 3 + 1)) r
  let r := replaceAll "HH".data (padZero 2 (natDec c.hours)) r
  let r := replaceNF 'H' ['H'] (natDec c.hours) r
  let r := replaceAll "mm".data (padZero 2 (natDec c.mins)) r
  let r := replaceNF 'm' ['m'] (natDec c.mins) r
  let r := replaceAll "ss".data (padZero 2 (natDec c.secs)) r
  let r := replaceNF 's' ['s'] (natDec c.secs) r
  replaceAll "SSS".data (padZero 3 (natDec c.ms)) r

/-- processSpecialPlaceholders from src/main.ts: the seven token-family
passes in source order, threading the counter state. -/
def processSpecialPlaceholders (r62 : Nat → Fin 62) (k ut : Nat) (clk : Clock)
    (g16 : Nat → Fin 16) (frac : List Char) (st : CounterState) (t : List Char) :
    List Char × CounterState :=
  let t1 := (processRandomPlaceholders r62 k t).1
  let t2 := processTimestampPlaceholders ut clk t1
  let t3 := processIDPlaceholders g16 frac t2
  let p := processCounterPlaceholders st t3
  let t5 := processSystemPlaceholders p.1
  let t6 := processTextFormatPlaceholders t5
  (processClipboardPlaceholders t6, p.2)

/-- processTemplate from src/main.ts: the date pass followed by the special
placeholder passes. -/
def processTemplate (clk : Clock) (ut : Nat) (r62 : Nat → Fin 62) (k : Nat)
    (g16 : Nat → Fin 16) (frac : List Char) (st : CounterState) (t : List Char) :
    List Char × CounterState :=
  processSpecialPlaceholders r62 k ut clk g16 frac st (processDateTokens clk t)

/-! ## Segment templates

Structured templates used to state the pass theorems: literal chunks free of
opening braces interleaved with tokens of one family. -/

/-- A template segment for one parameterised token family. -/
inductive Seg where
  | lit : List Char → Seg
  | tok : List Char → Seg
deriving DecidableEq

/-- Render one segment against a token name. -/
def renderSeg (name : List Char) : Seg → List Char
  | .lit s => s
  | .tok prm => tokStr name prm

/-- Render a segment template against a token name. -/
def render (name : List Char) (segs : List Seg) : List Char :=
  (segs.map (renderSeg name)).flatten

/-- The token parameters of a segment template, in order. -/
def segParams : List Seg → List (List Char)
  | [] => []
  | .lit _ :: rest => segParams rest
  | .tok prm :: rest => prm :: segParams rest

/-- Well-formedness of a segment for the parameter class p: literal chunks
carry no opening brace, parameters are nonempty and within the class. -/
def goodSegB (p : Char → Bool) : Seg → Bool
  | .lit s => decide ('{' ∉ s)
  | .tok prm => decide (prm ≠ []) && prm.all p

/-- The expected output of a pass on a segment template: literals are kept,
each token is replaced by the generated replacement for its parameter, with
the generator state threaded left to right. -/
def genRender {σ : Type} (gen : σ → List Char → List Char × σ) :
    σ → List Seg → List Char × σ
  | st, [] => ([], st)
  | st, .lit s :: rest =>
    let o := genRender gen st rest
    (s ++ o.1, o.2)
  | st, .tok prm :: rest =>
    let g := gen st prm
    let o := genRender gen g.2 rest
    (g.1 ++ o.1, o.2)

/-- A template segment for the identifier pass: literal chunks, uuid tokens
and shortid tokens. -/
inductive IdSeg where
  | lit : List Char → IdSeg
  | uuidTok : IdSeg
  | shortidTok : IdSeg
deriving DecidableEq

/-- Render one identifier segment. -/
def renderIdSeg : IdSeg → List Char
  | .lit s => s
  | .uuidTok => plainTok "uuid".data
  | .shortidTok => plainTok "shortid".data

/-- Render an identifier segment template. -/
def renderId (segs : List IdSeg) : List Char := (segs.map renderIdSeg).flatten

/-- Well-formedness of an identifier segment: literal chunks carry no
opening brace. -/
def goodIdSegB : IdSeg → Bool
  | .lit s => decide ('{' ∉ s)
  | _ => true

/-- Expected output of the identifier pass on a segment template: the uuid
generated once replaces every uuid token, the short identifier generated
once replaces every shortid token. -/
def renderIdOut (u sid : List Char) (segs : List IdSeg) : List Char :=
  (segs.map fun e => match e with
    | .lit s => s
    | .uuidTok => u
    | .shortidTok => sid).flatten

/-- A template segment for a bare token family: literal chunks and the one
token. -/
inductive PSeg where
  | lit : List Char → PSeg
  | tok : PSeg
deriving DecidableEq

/-- Render one bare-token segment against the full token text. -/
def renderPSeg (pat : List Char) : PSeg → List Char
  | .lit s => s
  | .tok => pat

/-- Render a bare-token segment template. -/
def renderPlain (pat : List Char) (segs : List PSeg) : List Char :=
  (segs.map (renderPSeg pat)).flatten

/-- Well-formedness of a bare-token segment. -/
def goodPSegB : PSeg → Bool
  | .lit s => decide ('{' ∉ s)
  | .tok => true

/-- Expected output of a pass replacing every bare token by one fixed
replacement. -/
def renderPlainOut (rep : List Char) (segs : List PSeg) : List Char :=
  (segs.map (renderPSeg rep)).flatten

/-- Expected output of the named-counter pass on a template whose tokens all
name the same counter: the j-th token from the left renders the value v plus
j in decimal. -/
def renderCounterOut (v : Nat) : List Seg → List Char
  | [] => []
  | .lit s :: rest => s ++ renderCounterOut v rest
  | .tok _ :: rest => natDec v ++ renderCounterOut (v + 1) rest

/-- Number of tokens in a segment template. -/
def tokCount : List Seg → Nat
  | [] => 0
  | .lit _ :: rest => tokCount rest
  | .tok _ :: rest => tokCount rest + 1

/-- View of an identifier template after the uuid replace: uuid tokens have
become literal chunks holding the generated identifier, shortid tokens
remain. -/
def idToPSeg (urep : List Char) : IdSeg → PSeg
  | .lit s => .lit s
  | .uuidTok => .lit urep
  | .shortidTok => .tok

/-! # Theorems -/

/-! ## Base round trip -/

theorem digVal_toDigitChar : ∀ d, d < 36 → digVal (toDigitChar d) = some d := by
  decide

theorem natToBaseF_ne_nil (b n fuel : Nat) (h : 0 < fuel) :
    natToBaseF b fuel n ≠ [] := by
  cases fuel with
  | zero => omega
  | succ f =>
    simp only [natToBaseF]
    split
    · simp
    · simp

theorem parse_natToBaseF (b : Nat) (hb1 : 2 ≤ b) (hb2 : b ≤ 36) :
    ∀ fuel n, n < fuel → ∀ a,
      List.foldl (parseStep b) (some a) (natToBaseF b fuel n) =
        some (a * b ^ (natToBaseF b fuel n).length + n) := by
  intro fuel
  induction fuel with
  | zero => omega
  | succ f ih =>
    intro n hn a
    by_cases hlt : n < b
    · have hd : digVal (toDigitChar n) = some n := digVal_toDigitChar n (by omega)
      simp [natToBaseF, hlt, parseStep, hd, Nat.mul_comm]
    · have hb0 : 0 < b := by omega
      have hdivlt : n / b < n := Nat.div_lt_self (by omega) (by omega)
      have hdivf : n / b < f := by omega
      have hd : digVal (toDigitChar (n % b)) = some (n % b) :=
        digVal_toDigitChar (n % b) (by have := Nat.mod_lt n hb0; omega)
      have hmlt : n % b < b := Nat.mod_lt n hb0
      simp only [natToBaseF, if_neg hlt, List.foldl_append, ih (n / b) hdivf a,
        List.foldl_cons, List.foldl_nil, parseStep, hd, if_pos hmlt,
        List.length_append, List.length_cons, List.length_nil]
      congr 1
      have hmod := Nat.div_add_mod n b
      have hkey : b * (a * b ^ (natToBaseF b f (n / b)).length + n / b) + n % b =
          a * (b ^ (natToBaseF b f (n / b)).length * b) + (b * (n / b) + n % b) := by
        ring
      rw [hkey, hmod, pow_succ]

theorem parseBase_natToBase (b n : Nat) (hb1 : 2 ≤ b) (hb2 : b ≤ 36) :
    parseBase b (natToBase b n) = some n := by
  have hne : natToBaseF b (n + 1) n ≠ [] := natToBaseF_ne_nil b n (n + 1) (by omega)
  have h := parse_natToBaseF b hb1 hb2 (n + 1) n (by omega) 0
  simp only [parseBase, natToBase]
  rw [if_neg (by simpa [List.isEmpty_iff] using hne)]
  simpa using h

/-- C7: for every base B in 2..36 and clock with hour at most 23, minute and
second at most 59, the string substituted for the daytime token, namely the
base-B rendering of secondsSinceMidnight, parses back under base-B integer
parsing to exactly hours times 3600 plus minutes times 60 plus seconds, and
that value is at most 86399. -/
theorem c7_daytime_base_roundtrip (b : Nat) (c : Clock)
    (hb1 : 2 ≤ b) (hb2 : b ≤ 36)
    (hh : c.hours ≤ 23) (hm : c.mins ≤ 59) (hs : c.secs ≤ 59) :
    parseBase b (natToBase b (secondsSinceMidnight c)) =
      some (c.hours * 3600 + c.mins * 60 + c.secs) ∧
    secondsSinceMidnight c ≤ 86399 := by
  constructor
  · exact parseBase_natToBase b (secondsSinceMidnight c) hb1 hb2
  · unfold secondsSinceMidnight
    omega

theorem c7_witness :
    2 ≤ 16 ∧ (16 : Nat) ≤ 36 ∧
    parseBase 16 (natToBase 16 (secondsSinceMidnight ⟨2025, 3, 24, 4, 15, 30, 45, 123, 114, 17⟩)) =
      some (15 * 3600 + 30 * 60 + 45) ∧
    secondsSinceMidnight ⟨2025, 3, 24, 4, 15, 30, 45, 123, 114, 17⟩ ≤ 86399 := by
  refine ⟨by omega, by omega, ?_, ?_⟩
  · exact (c7_daytime_base_roundtrip 16 ⟨2025, 3, 24, 4, 15, 30, 45, 123, 114, 17⟩
      (by omega) (by omega) (by decide) (by decide) (by decide)).1
  · exact (c7_daytime_base_roundtrip 16 ⟨2025, 3, 24, 4, 15, 30, 45, 123, 114, 17⟩
      (by omega) (by omega) (by decide) (by decide) (by decide)).2

/-! ## Hash -/

theorem toInt32_congr (a b : Int) (h : a % 4294967296 = b % 4294967296) :
    toInt32 a = toInt32 b := by
  unfold toInt32
  omega

theorem toInt32_emod (a : Int) : toInt32 a % 4294967296 = a % 4294967296 := by
  unfold toInt32
  omega

theorem hashStep_eq_spec (h : Int) (code : Nat) :
    hashStep h code = hashStepSpec h code := by
  unfold hashStep hashStepSpec
  apply toInt32_congr
  have h32 := toInt32_emod (h * 32)
  omega

theorem hashFold_eq_spec (s : List Char) : ∀ h : Int,
    s.foldl (fun h ch => hashStep h ch.toNat) h =
      s.foldl (fun h ch => hashStepSpec h ch.toNat) h := by
  induction s with
  | nil => intro h; rfl
  | cons c t ih => intro h; simp only [List.foldl_cons, hashStep_eq_spec, ih]

/-- C8: createHash is a deterministic function of its input string, and its
result equals the reference definition: fold hash times 31 plus character
code with each step wrapped to a signed 32-bit integer, absolute value,
base-16 rendering. -/
theorem c8_createHash_deterministic_matches_reference :
    (∀ s t : List Char, s = t → createHash s = createHash t) ∧
    ∀ s : List Char, createHash s = createHashSpec s := by
  constructor
  · intro s t h
    rw [h]
  · intro s
    unfold createHash createHashSpec
    rw [hashFold_eq_spec]

theorem c8_witness :
    createHash ("abc".data) = createHash ("abc".data) ∧
    createHash ("abc".data) = createHashSpec ("abc".data) :=
  ⟨c8_createHash_deterministic_matches_reference.1 ("abc".data) ("abc".data) rfl,
   c8_createHash_deterministic_matches_reference.2 ("abc".data)⟩

/-! ## slugify -/

/-- C9: slugify equals the reference pipeline applied in the order stated by
the spec, and in particular maps the text Meeting Notes 2025 to
meeting-notes-2025. -/
theorem c9_slugify_matches_reference :
    (∀ t : List Char, slugify t = slugifySpec t) ∧
    slugify ("Meeting Notes 2025".data) = "meeting-notes-2025".data := by
  constructor
  · intro t
    rfl
  · decide

/-! ## Scanner and replace machinery -/

theorem dropWhileLen (p : Char → Bool) (l : List Char) :
    (l.dropWhile p).length ≤ l.length := by
  induction l with
  | nil => simp
  | cons c t ih =>
    rw [List.dropWhile]
    cases p c
    · simp
    · simpa using Nat.le_succ_of_le ih

theorem stripPfx_eq_some : ∀ (ps s r : List Char), stripPfx ps s = some r ↔ s = ps ++ r := by
  intro ps
  induction ps with
  | nil =>
    intro s r
    simp [stripPfx, eq_comm]
  | cons c pt ih =>
    intro s r
    cases s with
    | nil => simp [stripPfx]
    | cons d t =>
      simp only [stripPfx, List.cons_append, List.cons.injEq]
      by_cases hcd : c = d
      · rw [if_pos hcd, ih t r]
        subst hcd
        simp
      · rw [if_neg hcd]
        constructor
        · intro h
          exact absurd h (by simp)
        · rintro ⟨h1, -⟩
          exact absurd h1.symm hcd

theorem stripPfx_append_self (ps r : List Char) : stripPfx ps (ps ++ r) = some r :=
  (stripPfx_eq_some ps (ps ++ r) r).2 rfl

theorem stripPfx_isPfx (ps s r : List Char) (h : stripPfx ps s = some r) :
    ps.isPrefixOf s = true := by
  rw [stripPfx_eq_some] at h
  subst h
  rw [List.isPrefixOf_iff_prefix]
  exact List.prefix_append ps r

theorem parseTok_some_lt (name : List Char) (p : Char → Bool) (s prm rest2 : List Char)
    (h : parseTok name p s = some (prm, rest2)) : rest2.length < s.length := by
  unfold parseTok at h
  cases hsp : stripPfx ('{' :: (name ++ [':'])) s with
  | none => rw [hsp] at h; exact absurd h (by simp)
  | some r =>
    rw [hsp] at h
    simp only [] at h
    by_cases he : (r.takeWhile p).isEmpty
    · rw [if_pos he] at h; exact absurd h (by simp)
    · rw [if_neg he] at h
      by_cases hh : (r.dropWhile p).head? = some '}'
      · rw [if_pos hh] at h
        have h2 : rest2 = (r.dropWhile p).tail := by
          have := Option.some.inj h
          exact (Prod.mk.inj this).2.symm
        have hr : s = ('{' :: (name ++ [':'])) ++ r := (stripPfx_eq_some _ _ _).1 hsp
        have hd : (r.dropWhile p).length ≤ r.length := dropWhileLen p r
        have ht : (r.dropWhile p).tail.length = (r.dropWhile p).length - 1 :=
          List.length_tail _
        subst h2
        subst hr
        simp only [List.length_append, List.length_cons]
        omega
      · rw [if_neg hh] at h; exact absurd h (by simp)

theorem scanF_adeq (name : List Char) (p : Char → Bool) :
    ∀ f1 (s : List Char) (f2 : Nat), s.length ≤ f1 → s.length ≤ f2 →
      scanF name p f1 s = scanF name p f2 s := by
  intro f1
  induction f1 with
  | zero =>
    intro s f2 h1 _
    have hs : s = [] := List.length_eq_zero.mp (by omega)
    subst hs
    cases f2 <;> rfl
  | succ f ih =>
    intro s f2 h1 h2
    cases s with
    | nil => cases f2 <;> rfl
    | cons c t =>
      cases f2 with
      | zero => simp at h2
      | succ f2' =>
        simp only [scanF]
        cases hpt : parseTok name p (c :: t) with
        | none =>
          exact ih t f2' (by simp at h1; omega) (by simp at h2; omega)
        | some pr =>
          obtain ⟨prm, rest2⟩ := pr
          have hlt := parseTok_some_lt name p (c :: t) prm rest2 hpt
          simp only [List.length_cons] at hlt
          show prm :: scanF name p f rest2 = prm :: scanF name p f2' rest2
          congr 1
          exact ih rest2 f2' (by simp at h1; omega) (by simp at h2; omega)

theorem scanTok_cons_none (name : List Char) (p : Char → Bool) (c : Char) (t : List Char)
    (h : parseTok name p (c :: t) = none) :
    scanTok name p (c :: t) = scanTok name p t := by
  simp only [scanTok, List.length_cons, scanF, h]

theorem scanTok_some (name : List Char) (p : Char → Bool) (s prm rest2 : List Char)
    (h : parseTok name p s = some (prm, rest2)) :
    scanTok name p s = prm :: scanTok name p rest2 := by
  cases s with
  | nil =>
    exfalso
    unfold parseTok at h
    cases hsp : stripPfx ('{' :: (name ++ [':'])) [] with
    | none => rw [hsp] at h; exact absurd h (by simp)
    | some r =>
      have := (stripPfx_eq_some _ _ _).1 hsp
      exact absurd this (by simp)
  | cons c t =>
    have hlt := parseTok_some_lt name p (c :: t) prm rest2 h
    simp only [List.length_cons] at hlt
    simp only [scanTok, List.length_cons, scanF, h]
    congr 1
    exact scanF_adeq name p t.length rest2 rest2.length (by omega) le_rfl

theorem replaceAllF_adeq (pat rep : List Char) (hpat : pat ≠ []) :
    ∀ f1 (s : List Char) (f2 : Nat), s.length ≤ f1 → s.length ≤ f2 →
      replaceAllF pat rep f1 s = replaceAllF pat rep f2 s := by
  have hplen : 0 < pat.length := List.length_pos.mpr hpat
  intro f1
  induction f1 with
  | zero =>
    intro s f2 h1 _
    have hs : s = [] := List.length_eq_zero.mp (by omega)
    subst hs
    cases f2 <;> rfl
  | succ f ih =>
    intro s f2 h1 h2
    cases s with
    | nil => cases f2 <;> rfl
    | cons c t =>
      cases f2 with
      | zero => simp at h2
      | succ f2' =>
        simp only [replaceAllF]
        cases hpf : pat.isPrefixOf (c :: t)
        · simp only [Bool.false_eq_true, if_false]
          rw [ih t f2' (by simp at h1; omega) (by simp at h2; omega)]
        · simp only [if_true]
          congr 1
          have hd : ((c :: t).drop pat.length).length = t.length + 1 - pat.length := by
            simp [List.length_drop]
          exact ih _ f2' (by simp at h1; omega) (by simp at h2; omega)

theorem replaceAll_cons_neg (pat rep : List Char) (c : Char) (t : List Char)
    (h : pat.isPrefixOf (c :: t) = false) :
    replaceAll pat rep (c :: t) = c :: replaceAll pat rep t := by
  simp only [replaceAll, List.length_cons, replaceAllF, h, Bool.false_eq_true, if_false]

theorem replaceAll_cons_pos (pat rep : List Char) (c : Char) (t : List Char)
    (hpat : pat ≠ []) (h : pat.isPrefixOf (c :: t) = true) :
    replaceAll pat rep (c :: t) = rep ++ replaceAll pat rep ((c :: t).drop pat.length) := by
  have hplen : 0 < pat.length := List.length_pos.mpr hpat
  simp only [replaceAll, List.length_cons, replaceAllF, h, if_true]
  congr 1
  have hd : ((c :: t).drop pat.length).length = t.length + 1 - pat.length := by
    simp [List.length_drop]
  exact replaceAllF_adeq pat rep hpat t.length _ _ (by omega) (by omega)

theorem isPrefixOf_cons_ne (p0 c : Char) (pr t : List Char) (hc : p0 ≠ c) :
    (p0 :: pr).isPrefixOf (c :: t) = false := by
  simp [List.isPrefixOf, hc]

theorem isPrefixOf_append_self (pat s : List Char) : pat.isPrefixOf (pat ++ s) = true := by
  rw [List.isPrefixOf_iff_prefix]
  exact List.prefix_append pat s

theorem replaceFirst_append_lit (pat rep : List Char) :
    ∀ (a : List Char), pat.head? = some '{' → '{' ∉ a → ∀ s,
      replaceFirst pat rep (a ++ s) = a ++ replaceFirst pat rep s := by
  intro a
  induction a with
  | nil => intro _ _ s; simp
  | cons c a' ih =>
    intro hpat ha s
    have hc : c ≠ '{' := fun he => ha (he ▸ List.mem_cons_self c a')
    have ha' : '{' ∉ a' := fun h => ha (List.mem_cons_of_mem _ h)
    obtain ⟨p0, pr, rfl⟩ : ∃ p0 pr, pat = p0 :: pr := by
      cases pat with
      | nil => simp at hpat
      | cons x xs => exact ⟨x, xs, rfl⟩
    have hp0 : p0 = '{' := by simpa using hpat
    have hnp : (p0 :: pr).isPrefixOf (c :: (a' ++ s)) = false :=
      isPrefixOf_cons_ne p0 c pr _ (by rw [hp0]; exact fun h => hc h.symm)
    rw [List.cons_append, replaceFirst, if_neg (by simp [hnp]), ih hpat ha' s]
    simp

theorem replaceFirst_pfx (pat rep s : List Char) (hpat : pat ≠ []) :
    replaceFirst pat rep (pat ++ s) = rep ++ s := by
  obtain ⟨p0, pr, rfl⟩ := List.exists_cons_of_ne_nil hpat
  rw [List.cons_append, replaceFirst,
    if_pos (by simp [isPrefixOf_append_self (p0 :: pr) s])]
  have hdrop : (p0 :: (pr ++ s)).drop (p0 :: pr).length = s := by
    have : (p0 :: (pr ++ s)) = (p0 :: pr) ++ s := by simp
    rw [this, List.drop_left]
  rw [hdrop]

theorem replaceAll_id_no_occ (pat rep : List Char) (_hpat : pat ≠ []) :
    ∀ s, hasOcc pat s = false → replaceAll pat rep s = s := by
  intro s
  induction s with
  | nil => intro _; rfl
  | cons c t ih =>
    intro h
    rw [hasOcc, Bool.or_eq_false_iff] at h
    rw [replaceAll_cons_neg pat rep c t h.1, ih h.2]

theorem parseTok_none_no_pfx (name : List Char) (p : Char → Bool) (s : List Char)
    (h : ('{' :: (name ++ [':'])).isPrefixOf s = false) :
    parseTok name p s = none := by
  unfold parseTok
  cases hsp : stripPfx ('{' :: (name ++ [':'])) s with
  | none => rfl
  | some r =>
    exact absurd (stripPfx_isPfx _ _ _ hsp) (by simp [h])

theorem scanTok_nil_of_no_occ (name : List Char) (p : Char → Bool) :
    ∀ s, hasOcc ('{' :: (name ++ [':'])) s = false → scanTok name p s = [] := by
  intro s
  induction s with
  | nil => intro _; rfl
  | cons c t ih =>
    intro h
    rw [hasOcc, Bool.or_eq_false_iff] at h
    rw [scanTok_cons_none name p c t (parseTok_none_no_pfx name p _ h.1), ih h.2]

theorem hasOcc_extend (pat1 pat2 : List Char) (hpfx : pat1.isPrefixOf pat2 = true) :
    ∀ s, hasOcc pat1 s = false → hasOcc pat2 s = false := by
  intro s
  induction s with
  | nil =>
    intro h
    rw [hasOcc] at h ⊢
    cases pat2 with
    | nil =>
      cases pat1 with
      | nil => simp at h
      | cons x xs => simp [List.isPrefixOf] at hpfx
    | cons y ys => simp
  | cons c t ih =>
    intro h
    rw [hasOcc, Bool.or_eq_false_iff] at h ⊢
    refine ⟨?_, ih h.2⟩
    cases hp2 : pat2.isPrefixOf (c :: t)
    · rfl
    · exfalso
      have h1 : pat1 <+: pat2 := List.isPrefixOf_iff_prefix.mp hpfx
      have h2 : pat2 <+: (c :: t) := List.isPrefixOf_iff_prefix.mp hp2
      have h3 := List.isPrefixOf_iff_prefix.mpr (h1.trans h2)
      rw [h.1] at h3
      exact Bool.false_ne_true h3

theorem replaceAll_append_lit (pat rep : List Char) :
    ∀ (a : List Char), pat.head? = some '{' → '{' ∉ a → ∀ s,
      replaceAll pat rep (a ++ s) = a ++ replaceAll pat rep s := by
  intro a
  induction a with
  | nil => intro _ _ s; simp
  | cons c a' ih =>
    intro hpat ha s
    have hc : c ≠ '{' := fun he => ha (he ▸ List.mem_cons_self c a')
    have ha' : '{' ∉ a' := fun h => ha (List.mem_cons_of_mem _ h)
    obtain ⟨p0, pr, rfl⟩ : ∃ p0 pr, pat = p0 :: pr := by
      cases pat with
      | nil => simp at hpat
      | cons x xs => exact ⟨x, xs, rfl⟩
    have hp0 : p0 = '{' := by simpa using hpat
    have hnp : (p0 :: pr).isPrefixOf (c :: (a' ++ s)) = false :=
      isPrefixOf_cons_ne p0 c pr _ (by rw [hp0]; exact fun h => hc h.symm)
    rw [List.cons_append, replaceAll_cons_neg _ _ _ _ hnp, ih hpat ha' s]
    simp

theorem replaceAll_pfx (pat rep s : List Char) (hpat : pat ≠ []) :
    replaceAll pat rep (pat ++ s) = rep ++ replaceAll pat rep s := by
  obtain ⟨p0, pr, rfl⟩ := List.exists_cons_of_ne_nil hpat
  have hshape : (p0 :: pr) ++ s = p0 :: (pr ++ s) := by simp
  rw [hshape, replaceAll_cons_pos _ _ _ _ hpat (by
    rw [← hshape]; exact isPrefixOf_append_self (p0 :: pr) s)]
  congr 1
  rw [← hshape, List.drop_left]

theorem replaceAll_skip_head (pat rep : List Char) (c : Char) (a s : List Char)
    (h0 : pat.isPrefixOf (c :: (a ++ s)) = false) (hpat : pat.head? = some '{')
    (ha : '{' ∉ a) :
    replaceAll pat rep (c :: (a ++ s)) = c :: (a ++ replaceAll pat rep s) := by
  rw [replaceAll_cons_neg _ _ _ _ h0, replaceAll_append_lit pat rep a hpat ha s]

theorem parseTok_none_head (name : List Char) (p : Char → Bool) (c : Char) (t : List Char)
    (hc : c ≠ '{') : parseTok name p (c :: t) = none := by
  apply parseTok_none_no_pfx
  exact isPrefixOf_cons_ne '{' c _ _ (fun h => hc h.symm)

theorem scanTok_append_lit (name : List Char) (p : Char → Bool) :
    ∀ (a : List Char), '{' ∉ a → ∀ s, scanTok name p (a ++ s) = scanTok name p s := by
  intro a
  induction a with
  | nil => intro _ s; simp
  | cons c a' ih =>
    intro ha s
    have hc : c ≠ '{' := fun he => ha (he ▸ List.mem_cons_self c a')
    have ha' : '{' ∉ a' := fun h => ha (List.mem_cons_of_mem _ h)
    rw [List.cons_append, scanTok_cons_none name p c _ (parseTok_none_head name p c _ hc),
      ih ha' s]

theorem takeWhile_append_stop (p : Char → Bool) (x : Char) (hx : p x = false) :
    ∀ (a s : List Char), (∀ y ∈ a, p y = true) →
      (a ++ x :: s).takeWhile p = a ∧ (a ++ x :: s).dropWhile p = x :: s := by
  intro a
  induction a with
  | nil => intro s _; simp [List.takeWhile, List.dropWhile, hx]
  | cons y a' ih =>
    intro s hall
    have hy : p y = true := hall y (List.mem_cons_self y a')
    have ihh := ih s (fun z hz => hall z (List.mem_cons_of_mem _ hz))
    constructor
    · rw [List.cons_append, List.takeWhile_cons, hy]
      simp [ihh.1]
    · rw [List.cons_append, List.dropWhile_cons, hy]
      simp [ihh.2]

theorem parseTok_at_tok (name : List Char) (p : Char → Bool) (prm s : List Char)
    (hp : p '}' = false) (hne : prm ≠ []) (hall : ∀ y ∈ prm, p y = true) :
    parseTok name p (tokStr name prm ++ s) = some (prm, s) := by
  have hshape : tokStr name prm ++ s = ('{' :: (name ++ [':'])) ++ (prm ++ '}' :: s) := by
    simp [tokStr]
  rw [hshape]
  unfold parseTok
  rw [stripPfx_append_self]
  obtain ⟨htw, hdw⟩ := takeWhile_append_stop p '}' hp prm s hall
  simp only [htw, hdw]
  rw [if_neg (by simp [List.isEmpty_iff, hne])]
  simp

theorem scanTok_render (name : List Char) (p : Char → Bool) (hp : p '}' = false) :
    ∀ segs, (∀ e ∈ segs, goodSegB p e = true) →
      scanTok name p (render name segs) = segParams segs := by
  intro segs
  induction segs with
  | nil => intro _; rfl
  | cons e rest ih =>
    intro hgood
    have hrest := fun x hx => hgood x (List.mem_cons_of_mem _ hx)
    cases e with
    | lit s =>
      have hs : '{' ∉ s := by
        have := hgood (Seg.lit s) (List.mem_cons_self _ _)
        simpa [goodSegB] using this
      have hrender : render name (Seg.lit s :: rest) = s ++ render name rest := by
        simp [render, renderSeg]
      rw [hrender, scanTok_append_lit name p s hs _, ih hrest]
      simp [segParams]
    | tok prm =>
      have hb := hgood (Seg.tok prm) (List.mem_cons_self _ _)
      simp only [goodSegB, Bool.and_eq_true, decide_eq_true_eq] at hb
      have hall : ∀ y ∈ prm, p y = true := by
        intro y hy
        exact List.all_eq_true.mp hb.2 y hy
      have hrender : render name (Seg.tok prm :: rest) = tokStr name prm ++ render name rest := by
        simp [render, renderSeg]
      rw [hrender, scanTok_some name p _ prm _ (parseTok_at_tok name p prm _ hp hb.1 hall),
        ih hrest]
      simp [segParams]

/-! ## The generic pass theorem -/

theorem scanReplace_loop {σ : Type} (name : List Char) (p : Char → Bool)
    (gen : σ → List Char → List Char × σ)
    (hrep : ∀ st prm, '{' ∉ (gen st prm).1) :
    ∀ segs (A : List Char) (st : σ), '{' ∉ A →
      (∀ e ∈ segs, goodSegB p e = true) →
      (segParams segs).foldl
        (fun acc prm =>
          let g := gen acc.2 prm
          (replaceFirst (tokStr name prm) g.1 acc.1, g.2))
        (A ++ render name segs, st)
      = (A ++ (genRender gen st segs).1, (genRender gen st segs).2) := by
  intro segs
  induction segs with
  | nil =>
    intro A st _ _
    simp [segParams, render, genRender]
  | cons e rest ih =>
    intro A st hA hgood
    have hrest := fun x hx => hgood x (List.mem_cons_of_mem _ hx)
    cases e with
    | lit s =>
      have hs : '{' ∉ s := by
        have := hgood (Seg.lit s) (List.mem_cons_self _ _)
        simpa [goodSegB] using this
      have hA' : '{' ∉ A ++ s := by
        intro hmem
        rcases List.mem_append.mp hmem with h | h
        · exact hA h
        · exact hs h
      have h1 : A ++ render name (Seg.lit s :: rest) = (A ++ s) ++ render name rest := by
        simp [render, renderSeg]
      rw [show segParams (Seg.lit s :: rest) = segParams rest from rfl, h1,
        ih (A ++ s) st hA' hrest]
      simp [genRender, List.append_assoc]
    | tok prm =>
      have htok_ne : tokStr name prm ≠ [] := by simp [tokStr]
      have hhead : (tokStr name prm).head? = some '{' := by simp [tokStr]
      have h1 : A ++ render name (Seg.tok prm :: rest) =
          A ++ (tokStr name prm ++ render name rest) := by
        simp [render, renderSeg]
      rw [show segParams (Seg.tok prm :: rest) = prm :: segParams rest from rfl, h1,
        List.foldl_cons]
      simp only []
      rw [replaceFirst_append_lit _ _ A hhead hA _, replaceFirst_pfx _ _ _ htok_ne]
      have hA2 : '{' ∉ A ++ (gen st prm).1 := by
        intro hmem
        rcases List.mem_append.mp hmem with h | h
        · exact hA h
        · exact hrep st prm h
      have hassoc : A ++ ((gen st prm).1 ++ render name rest) =
          (A ++ (gen st prm).1) ++ render name rest := by
        simp
      rw [hassoc, ih (A ++ (gen st prm).1) (gen st prm).2 hA2 hrest]
      simp [genRender, List.append_assoc]

theorem scanReplace_render {σ : Type} (name : List Char) (p : Char → Bool)
    (gen : σ → List Char → List Char × σ) (st0 : σ) (segs : List Seg)
    (hp : p '}' = false)
    (hrep : ∀ st prm, '{' ∉ (gen st prm).1)
    (hgood : ∀ e ∈ segs, goodSegB p e = true) :
    scanReplace name p gen st0 (render name segs) = genRender gen st0 segs := by
  unfold scanReplace
  rw [scanTok_render name p hp segs hgood]
  have h := scanReplace_loop name p gen hrep segs [] st0 (by simp) hgood
  simpa using h

theorem foldlOpt_id {σ : Type} (name : List Char)
    (gen : σ → List Char → Option (List Char) × σ) (t : List Char) :
    ∀ (ms : List (List Char)) (st : σ),
      (∀ prm ∈ ms, ∀ st2, (gen st2 prm).1 = none) →
      (List.foldl
        (fun acc prm =>
          let g := gen acc.2 prm
          (match g.1 with
           | some rep => replaceFirst (tokStr name prm) rep acc.1
           | none => acc.1,
           g.2))
        (t, st) ms).1 = t := by
  intro ms
  induction ms with
  | nil => intro st _; rfl
  | cons q ms' ih =>
    intro st h
    have hq := h q (List.mem_cons_self _ _) st
    rw [List.foldl_cons]
    simp only []
    rw [hq]
    exact ih (gen st q).2 (fun prm hm st2 => h prm (List.mem_cons_of_mem _ hm) st2)

theorem scanReplaceOpt_id {σ : Type} (name : List Char) (p : Char → Bool)
    (gen : σ → List Char → Option (List Char) × σ) (st0 : σ) (t : List Char)
    (h : ∀ prm ∈ scanTok name p t, ∀ st2, (gen st2 prm).1 = none) :
    (scanReplaceOpt name p gen st0 t).1 = t := by
  unfold scanReplaceOpt
  exact foldlOpt_id name gen t (scanTok name p t) st0 h

/-! ## Membership helpers -/

theorem getD_mem (d : Char) : ∀ (l : List Char) (i : Nat), i < l.length → l.getD i d ∈ l := by
  intro l
  induction l with
  | nil => intro i hi; simp at hi
  | cons c t ih =>
    intro i hi
    cases i with
    | zero => simp [List.getD_cons_zero]
    | succ j =>
      rw [List.getD_cons_succ]
      exact List.mem_cons_of_mem _ (ih j (by simpa using Nat.lt_of_succ_lt_succ hi))

theorem generateRandomString_length (r : Nat → Fin 62) (k n : Nat) :
    (generateRandomString r k n).length = n := by
  simp [generateRandomString]

theorem generateRandomString_mem (r : Nat → Fin 62) (k n : Nat) :
    ∀ c ∈ generateRandomString r k n, c ∈ alphabetChars := by
  intro c hc
  simp only [generateRandomString, List.mem_map, List.mem_range] at hc
  obtain ⟨i, _, rfl⟩ := hc
  apply getD_mem
  have h62 : (r (k + i)).val < 62 := (r (k + i)).isLt
  have hlen : alphabetChars.length = 62 := rfl
  omega

theorem genRandom_no_brace (r : Nat → Fin 62) :
    ∀ (st : Nat) (prm : List Char), '{' ∉ (genRandom r st prm).1 := by
  intro st prm hmem
  have h := generateRandomString_mem r st (decVal prm) '{' hmem
  have : '{' ∉ alphabetChars := by decide
  exact this h

theorem toDigitChar_ne_brace : ∀ d, d < 36 → toDigitChar d ≠ '{' := by decide

theorem natToBaseF_no_brace (b : Nat) (hb1 : 2 ≤ b) (hb2 : b ≤ 36) :
    ∀ fuel n, '{' ∉ natToBaseF b fuel n := by
  intro fuel
  induction fuel with
  | zero => intro n; simp [natToBaseF]
  | succ f ih =>
    intro n
    rw [natToBaseF]
    by_cases hnb : n < b
    · rw [if_pos hnb]
      intro hmem
      simp only [List.mem_singleton] at hmem
      exact toDigitChar_ne_brace n (by omega) hmem.symm
    · rw [if_neg hnb]
      intro hmem
      rcases List.mem_append.mp hmem with h | h
      · exact ih (n / b) h
      · simp only [List.mem_singleton] at h
        have hmod : n % b < b := Nat.mod_lt n (by omega)
        exact toDigitChar_ne_brace (n % b) (by omega) h.symm

theorem natDec_no_brace (n : Nat) : '{' ∉ natDec n :=
  natToBaseF_no_brace 10 (by omega) (by omega) (n + 1) n

/-! ## Random pass -/

/-- C5: on any well-formed template, the random-token pass replaces each
occurrence of a random token with digit parameter N by a freshly generated
string, independently per occurrence with the stream position threaded left
to right, and every generated string consists of exactly N characters drawn
from the 62-character alphabet. -/
theorem c5_random_pass_each_occurrence (r : Nat → Fin 62) (k : Nat) (segs : List Seg)
    (hgood : ∀ e ∈ segs, goodSegB isDigitB e = true) :
    processRandomPlaceholders r k (render "random".data segs) =
      genRender (genRandom r) k segs ∧
    ∀ j n : Nat, (generateRandomString r j n).length = n ∧
      ∀ c ∈ generateRandomString r j n, c ∈ alphabetChars := by
  constructor
  · exact scanReplace_render "random".data isDigitB (genRandom r) k segs (by decide)
      (genRandom_no_brace r) hgood
  · intro j n
    exact ⟨generateRandomString_length r j n, generateRandomString_mem r j n⟩

theorem c5_witness :
    (∀ e ∈ [Seg.lit "a".data, Seg.tok ['2'], Seg.lit "b".data, Seg.tok ['3']],
        goodSegB isDigitB e = true) ∧
    (processRandomPlaceholders (fun i => (Fin.ofNat i : Fin 62)) 0
        (render "random".data
          [Seg.lit "a".data, Seg.tok ['2'], Seg.lit "b".data, Seg.tok ['3']]) =
      genRender (genRandom (fun i => (Fin.ofNat i : Fin 62))) 0
        [Seg.lit "a".data, Seg.tok ['2'], Seg.lit "b".data, Seg.tok ['3']] ∧
    ∀ j n : Nat,
      (generateRandomString (fun i => (Fin.ofNat i : Fin 62)) j n).length = n ∧
      ∀ c ∈ generateRandomString (fun i => (Fin.ofNat i : Fin 62)) j n,
        c ∈ alphabetChars) :=
  ⟨by decide, c5_random_pass_each_occurrence (fun i => (Fin.ofNat i : Fin 62)) 0
    [Seg.lit "a".data, Seg.tok ['2'], Seg.lit "b".data, Seg.tok ['3']] (by decide)⟩

/-! ## Timestamp pass -/

/-- C6: whenever every unixtime and daytime token in the input carries a
base outside 2..36, the timestamp pass returns its input unchanged: the
out-of-range tokens stay verbatim and nothing is substituted. -/
theorem c6_out_of_range_base_left_verbatim (ut : Nat) (clk : Clock) (t : List Char)
    (h1 : ∀ prm ∈ scanTok "unixtime".data isDigitB t, decVal prm < 2 ∨ 36 < decVal prm)
    (h2 : ∀ prm ∈ scanTok "daytime".data isDigitB t, decVal prm < 2 ∨ 36 < decVal prm) :
    processTimestampPlaceholders ut clk t = t := by
  unfold processTimestampPlaceholders
  have hu : (scanReplaceOpt "unixtime".data isDigitB (genUnix ut) () t).1 = t := by
    apply scanReplaceOpt_id
    intro prm hm st2
    have := h1 prm hm
    simp only [genUnix]
    rw [if_neg (by omega)]
  rw [hu]
  apply scanReplaceOpt_id
  intro prm hm st2
  have := h2 prm hm
  simp only [genDaytime]
  rw [if_neg (by omega)]

theorem c6_witness :
    (∀ prm ∈ scanTok "unixtime".data isDigitB ("\x7bunixtime:1\x7d\x7bdaytime:37\x7d".data),
        decVal prm < 2 ∨ 36 < decVal prm) ∧
    (∀ prm ∈ scanTok "daytime".data isDigitB ("\x7bunixtime:1\x7d\x7bdaytime:37\x7d".data),
        decVal prm < 2 ∨ 36 < decVal prm) ∧
    processTimestampPlaceholders 1700000000 ⟨2025, 3, 24, 4, 15, 30, 45, 123, 114, 17⟩
        ("\x7bunixtime:1\x7d\x7bdaytime:37\x7d".data) =
      "\x7bunixtime:1\x7d\x7bdaytime:37\x7d".data :=
  ⟨by decide, by decide,
    c6_out_of_range_base_left_verbatim 1700000000 ⟨2025, 3, 24, 4, 15, 30, 45, 123, 114, 17⟩
      ("\x7bunixtime:1\x7d\x7bdaytime:37\x7d".data) (by decide) (by decide)⟩

/-! ## Counter pass -/

/-- C2 fails on the code: expanding a template with no counter token still
increments the global counter, because the increment is unconditional. At
the concrete template note and initial state one, the returned state has
global counter two. -/
theorem c2_counterexample_increment_without_tokens :
    processCounterPlaceholders ⟨1, []⟩ ("note".data) = ("note".data, ⟨2, []⟩) ∧
    ((⟨2, []⟩ : CounterState) ≠ (⟨1, []⟩ : CounterState)) := by
  constructor
  · decide
  · decide

/-- C2 amended: a call on a template with no occurrence of an opening brace
followed by the word counter leaves the named counters unchanged and the
template untouched, but still increments the global counter by exactly
one. -/
theorem c2_amended_no_counter_token_frame (st : CounterState) (t : List Char)
    (h : hasOcc ('{' :: "counter".data) t = false) :
    processCounterPlaceholders st t = (t, ⟨st.globalCounter + 1, st.namedCounters⟩) := by
  unfold processCounterPlaceholders
  have hocc9 : hasOcc (plainTok "counter".data) t = false :=
    hasOcc_extend _ _ (by decide) t h
  have hocc10 : hasOcc ('{' :: ("counter".data ++ [':'])) t = false :=
    hasOcc_extend _ _ (by decide) t h
  simp only []
  rw [replaceAll_id_no_occ _ _ (by decide) t hocc9]
  unfold scanReplace
  rw [scanTok_nil_of_no_occ _ _ t hocc10]
  rfl

theorem c2_amended_witness :
    hasOcc ('{' :: "counter".data) ("note".data) = false ∧
    processCounterPlaceholders ⟨5, [("x".data, 3)]⟩ ("note".data) =
      ("note".data, ⟨5 + 1, [("x".data, 3)]⟩) :=
  ⟨by decide, c2_amended_no_counter_token_frame ⟨5, [("x".data, 3)]⟩ ("note".data) (by decide)⟩

theorem scanTok_nil_no_brace (name : List Char) (p : Char → Bool) (s : List Char)
    (hs : '{' ∉ s) : scanTok name p s = [] := by
  have h := scanTok_append_lit name p s hs []
  simpa using h

theorem lookup_set_self : ∀ (m : List (List Char × Nat)) (nm : List Char) (x : Nat),
    lookupCounter (setCounter m nm x) nm = some x := by
  intro m
  induction m with
  | nil => intro nm x; simp [setCounter, lookupCounter]
  | cons e rest ih =>
    intro nm x
    obtain ⟨k, w⟩ := e
    by_cases hk : k = nm
    · simp [setCounter, lookupCounter, hk]
    · simp [setCounter, lookupCounter, hk, ih]

theorem set_set : ∀ (m : List (List Char × Nat)) (nm : List Char) (x y : Nat),
    setCounter (setCounter m nm x) nm y = setCounter m nm y := by
  intro m
  induction m with
  | nil => intro nm x y; simp [setCounter]
  | cons e rest ih =>
    intro nm x y
    obtain ⟨k, w⟩ := e
    by_cases hk : k = nm
    · simp [setCounter, hk]
    · simp [setCounter, hk, ih]

theorem genCounter_no_brace : ∀ (st : CounterState) (prm : List Char),
    '{' ∉ (genCounter st prm).1 := by
  intro st prm
  unfold genCounter
  by_cases hr : prm = "reset".data
  · rw [if_pos hr]
    simp
  · rw [if_neg hr]
    simp only []
    exact natDec_no_brace _

theorem genRender_counter (nm : List Char) (hnm : nm ≠ "reset".data) :
    ∀ (segs : List Seg) (g : Nat) (m : List (List Char × Nat)),
      (∀ prm ∈ segParams segs, prm = nm) →
      genRender genCounter ⟨g, m⟩ segs =
        (renderCounterOut (counterVal m nm) segs,
         ⟨g, if tokCount segs = 0 then m
             else setCounter m nm (counterVal m nm + tokCount segs)⟩) := by
  intro segs
  induction segs with
  | nil =>
    intro g m _
    simp [genRender, renderCounterOut, tokCount]
  | cons e rest ih =>
    intro g m hparams
    cases e with
    | lit s =>
      have hih := ih g m (by
        intro prm hm
        exact hparams prm (by simpa [segParams] using hm))
      show (s ++ (genRender genCounter ⟨g, m⟩ rest).1, (genRender genCounter ⟨g, m⟩ rest).2) = _
      rw [hih]
      simp [renderCounterOut, tokCount]
    | tok prm =>
      have hprm : prm = nm := hparams prm (by simp [segParams])
      subst hprm
      have hgen : genCounter ⟨g, m⟩ prm =
          (natDec (counterVal m prm), ⟨g, setCounter m prm (counterVal m prm + 1)⟩) := by
        unfold genCounter
        rw [if_neg hnm]
      have hcv : counterVal (setCounter m prm (counterVal m prm + 1)) prm =
          counterVal m prm + 1 := by
        unfold counterVal
        rw [lookup_set_self]
      have hih := ih g (setCounter m prm (counterVal m prm + 1)) (by
        intro q hq
        exact hparams q (by simpa [segParams] using Or.inr hq))
      rw [hcv] at hih
      show ((genCounter ⟨g, m⟩ prm).1 ++
          (genRender genCounter (genCounter ⟨g, m⟩ prm).2 rest).1,
          (genRender genCounter (genCounter ⟨g, m⟩ prm).2 rest).2) = _
      rw [hgen]
      simp only []
      rw [hih]
      show (natDec (counterVal m prm) ++ renderCounterOut (counterVal m prm + 1) rest, _) = _
      rw [show renderCounterOut (counterVal m prm) (Seg.tok prm :: rest) =
        natDec (counterVal m prm) ++ renderCounterOut (counterVal m prm + 1) rest from rfl]
      rw [show tokCount (Seg.tok prm :: rest) = tokCount rest + 1 from rfl]
      by_cases h0 : tokCount rest = 0
      · rw [h0]
        simp [set_set]
      · rw [if_neg h0, if_neg (by omega)]
        simp only [Prod.mk.injEq, CounterState.mk.injEq, true_and]
        rw [set_set]
        have harith : counterVal m prm + 1 + tokCount rest =
            counterVal m prm + (tokCount rest + 1) := by omega
        rw [harith]

theorem counter_replaceAll_id (rep : List Char) :
    ∀ (segs : List Seg) (nm : List Char), '{' ∉ nm →
      (∀ e ∈ segs, goodSegB neCloseB e = true) →
      (∀ prm ∈ segParams segs, prm = nm) →
      replaceAll (plainTok "counter".data) rep (render "counter".data segs) =
        render "counter".data segs := by
  intro segs
  induction segs with
  | nil =>
    intro nm _ _ _
    simp [render, replaceAll, replaceAllF]
  | cons e rest ih =>
    intro nm hnb hgood hparams
    have hrest_good := fun x hx => hgood x (List.mem_cons_of_mem _ hx)
    cases e with
    | lit s =>
      have hs : '{' ∉ s := by
        have := hgood (Seg.lit s) (List.mem_cons_self _ _)
        simpa [goodSegB] using this
      have hrender : render "counter".data (Seg.lit s :: rest) =
          s ++ render "counter".data rest := by
        simp [render, renderSeg]
      rw [hrender, replaceAll_append_lit _ _ s (by decide) hs _,
        ih nm hnb hrest_good (fun q hq => hparams q (by simpa [segParams] using hq))]
    | tok prm =>
      have hprm : prm = nm := hparams prm (by simp [segParams])
      subst hprm
      have hrender : render "counter".data (Seg.tok prm :: rest) =
          '{' :: (("counter".data ++ ':' :: (prm ++ ['}'])) ++ render "counter".data rest) := by
        simp [render, renderSeg, tokStr]
      have h0 : (plainTok "counter".data).isPrefixOf
          ('{' :: (("counter".data ++ ':' :: (prm ++ ['}'])) ++ render "counter".data rest)) =
          false := by
        simp [plainTok, List.isPrefixOf]
      have ha : '{' ∉ ("counter".data ++ ':' :: (prm ++ ['}'])) := by
        intro hmem
        simp at hmem
        exact hnb hmem
      rw [hrender, replaceAll_skip_head _ _ '{' _ _ h0 (by decide) ha,
        ih prm hnb hrest_good (fun q hq => hparams q (by simpa [segParams] using Or.inr hq))]

/-- C3 fails on the code for the global counter: both occurrences of the
bare counter token in one template receive the same value and the counter
advances by one, not by the number of occurrences. At initial state one the
two-token template renders one one, and the counter becomes two rather than
three. -/
theorem c3_counterexample_global_counter_shared :
    processCounterPlaceholders ⟨1, []⟩ ("\x7bcounter\x7d\x7bcounter\x7d".data) =
      ("11".data, ⟨2, []⟩) ∧ (2 : Nat) ≠ 1 + 2 := by
  constructor
  · decide
  · decide

/-- C3 amended: per-occurrence processing holds for named counters only.
First part: on a well-formed template whose tokens all name the same
counter nm (not reset), the k occurrences are replaced left to right by the
consecutive values v, v plus 1, and so on, where v is the current counter
value, and the named counter ends at v plus k, the global counter advancing
by its unconditional one. Second part: all occurrences of the bare global
counter token are replaced by the same current value and the global counter
advances by exactly one per call, named counters untouched. -/
theorem c3_amended_counter_semantics :
    (∀ (st : CounterState) (nm : List Char) (segs : List Seg),
      nm ≠ "reset".data → '{' ∉ nm →
      (∀ e ∈ segs, goodSegB neCloseB e = true) →
      (∀ prm ∈ segParams segs, prm = nm) →
      processCounterPlaceholders st (render "counter".data segs) =
        (renderCounterOut (counterVal st.namedCounters nm) segs,
         ⟨st.globalCounter + 1,
          if tokCount segs = 0 then st.namedCounters
          else setCounter st.namedCounters nm
            (counterVal st.namedCounters nm + tokCount segs)⟩)) ∧
    (∀ (st : CounterState) (psegs : List PSeg),
      (∀ e ∈ psegs, goodPSegB e = true) →
      processCounterPlaceholders st (renderPlain (plainTok "counter".data) psegs) =
        (renderPlainOut (natDec st.globalCounter) psegs,
         ⟨st.globalCounter + 1, st.namedCounters⟩)) := by
  constructor
  · intro st nm segs hreset hnb hgood hparams
    obtain ⟨g, m⟩ := st
    unfold processCounterPlaceholders
    simp only []
    rw [counter_replaceAll_id _ segs nm hnb hgood hparams]
    rw [scanReplace_render "counter".data neCloseB genCounter ⟨g + 1, m⟩ segs (by decide)
      genCounter_no_brace hgood]
    exact genRender_counter nm hreset segs (g + 1) m hparams
  · intro st psegs hgood
    obtain ⟨g, m⟩ := st
    unfold processCounterPlaceholders
    simp only []
    have hlits : ∀ e ∈ psegs.map (renderPSeg (natDec g)), '{' ∉ e := by
      intro e he
      rw [List.mem_map] at he
      obtain ⟨x, hx, rfl⟩ := he
      cases x with
      | lit s =>
        have := hgood (PSeg.lit s) hx
        simpa [goodPSegB, renderPSeg] using this
      | tok => exact natDec_no_brace g
    have hra : replaceAll (plainTok "counter".data) (natDec g)
        (renderPlain (plainTok "counter".data) psegs) =
        renderPlainOut (natDec g) psegs := by
      clear hlits
      induction psegs with
      | nil => simp [renderPlain, renderPlainOut, replaceAll, replaceAllF]
      | cons e rest ih =>
        have hrest := fun x hx => hgood x (List.mem_cons_of_mem _ hx)
        cases e with
        | lit s =>
          have hs : '{' ∉ s := by
            have := hgood (PSeg.lit s) (List.mem_cons_self _ _)
            simpa [goodPSegB] using this
          have h1 : renderPlain (plainTok "counter".data) (PSeg.lit s :: rest) =
              s ++ renderPlain (plainTok "counter".data) rest := by
            simp [renderPlain, renderPSeg]
          rw [h1, replaceAll_append_lit _ _ s (by decide) hs _, ih hrest]
          simp [renderPlainOut, renderPSeg]
        | tok =>
          have h1 : renderPlain (plainTok "counter".data) (PSeg.tok :: rest) =
              plainTok "counter".data ++ renderPlain (plainTok "counter".data) rest := by
            simp [renderPlain, renderPSeg]
          rw [h1, replaceAll_pfx _ _ _ (by decide), ih hrest]
          simp [renderPlainOut, renderPSeg]
    rw [hra]
    have hnb2 : '{' ∉ renderPlainOut (natDec g) psegs := by
      intro hmem
      unfold renderPlainOut at hmem
      rw [List.mem_flatten] at hmem
      obtain ⟨l, hl, hmem⟩ := hmem
      exact hlits l hl hmem
    unfold scanReplace
    rw [scanTok_nil_no_brace _ _ _ hnb2]
    rfl

theorem c3_amended_witness :
    ((['x'] : List Char) ≠ "reset".data ∧
     '{' ∉ (['x'] : List Char) ∧
     (∀ e ∈ ([Seg.lit "a".data, Seg.tok ['x'], Seg.tok ['x']] : List Seg),
        goodSegB neCloseB e = true) ∧
     (∀ prm ∈ segParams [Seg.lit "a".data, Seg.tok ['x'], Seg.tok ['x']], prm = ['x']) ∧
     processCounterPlaceholders ⟨7, [(['x'], 5)]⟩
        (render "counter".data [Seg.lit "a".data, Seg.tok ['x'], Seg.tok ['x']]) =
       (renderCounterOut (counterVal [(['x'], 5)] ['x'])
          [Seg.lit "a".data, Seg.tok ['x'], Seg.tok ['x']],
        ⟨7 + 1,
         if tokCount [Seg.lit "a".data, Seg.tok ['x'], Seg.tok ['x']] = 0 then [(['x'], 5)]
         else setCounter [(['x'], 5)] ['x']
           (counterVal [(['x'], 5)] ['x'] +
             tokCount [Seg.lit "a".data, Seg.tok ['x'], Seg.tok ['x']])⟩)) ∧
    processCounterPlaceholders ⟨4, []⟩
        (renderPlain (plainTok "counter".data) [PSeg.tok, PSeg.lit "-".data, PSeg.tok]) =
      (renderPlainOut (natDec 4) [PSeg.tok, PSeg.lit "-".data, PSeg.tok], ⟨4 + 1, []⟩) :=
  ⟨⟨by decide, by decide, by decide, by decide,
    c3_amended_counter_semantics.1 ⟨7, [(['x'], 5)]⟩ ['x']
      [Seg.lit "a".data, Seg.tok ['x'], Seg.tok ['x']]
      (by decide) (by decide) (by decide) (by decide)⟩,
   c3_amended_counter_semantics.2 ⟨4, []⟩ [PSeg.tok, PSeg.lit "-".data, PSeg.tok] (by decide)⟩

/-! ## Identifier pass -/

theorem uuidVariant_lt : ∀ x : Fin 16, ((x.val &&& 3) ||| 8) < 16 := by decide

theorem generateUUIDGo_length (g : Nat → Fin 16) :
    ∀ (t : List Char) (k : Nat), (generateUUIDGo g k t).length = t.length := by
  intro t
  induction t with
  | nil => intro k; rfl
  | cons c rest ih =>
    intro k
    rw [generateUUIDGo]
    by_cases hx : c = 'x'
    · rw [if_pos hx]
      simp [ih]
    · rw [if_neg hx]
      by_cases hy : c = 'y'
      · rw [if_pos hy]
        simp [ih]
      · rw [if_neg hy]
        simp [ih]

theorem generateUUIDGo_no_brace (g : Nat → Fin 16) :
    ∀ (t : List Char) (k : Nat), '{' ∉ t → '{' ∉ generateUUIDGo g k t := by
  intro t
  induction t with
  | nil => intro k _; simp [generateUUIDGo]
  | cons c rest ih =>
    intro k ht
    have hc : c ≠ '{' := fun he => ht (he ▸ List.mem_cons_self c rest)
    have hrest : '{' ∉ rest := fun h => ht (List.mem_cons_of_mem _ h)
    rw [generateUUIDGo]
    by_cases hx : c = 'x'
    · rw [if_pos hx]
      intro hmem
      rcases List.mem_cons.mp hmem with h | h
      · exact toDigitChar_ne_brace (g k).val (by have := (g k).isLt; omega) h.symm
      · exact ih (k + 1) hrest h
    · rw [if_neg hx]
      by_cases hy : c = 'y'
      · rw [if_pos hy]
        intro hmem
        rcases List.mem_cons.mp hmem with h | h
        · exact toDigitChar_ne_brace _ (by have := uuidVariant_lt (g k); omega) h.symm
        · exact ih (k + 1) hrest h
      · rw [if_neg hy]
        intro hmem
        rcases List.mem_cons.mp hmem with h | h
        · exact hc h.symm
        · exact ih k hrest h

theorem generateUUID_no_brace (g : Nat → Fin 16) : '{' ∉ generateUUID g :=
  generateUUIDGo_no_brace g _ 0 (by decide)

theorem generateUUID_length (g : Nat → Fin 16) : (generateUUID g).length = 36 := by
  rw [generateUUID, generateUUIDGo_length]
  rfl

theorem generateShortId_take (frac : List Char) : generateShortId frac = frac.take 8 := rfl

theorem generateShortId_length (frac : List Char) (h : 8 ≤ frac.length) :
    (generateShortId frac).length = 8 := by
  rw [generateShortId_take, List.length_take]
  omega

theorem generateShortId_no_brace (frac : List Char) (h : '{' ∉ frac) :
    '{' ∉ generateShortId frac := by
  rw [generateShortId_take]
  intro hmem
  exact h (List.take_subset 8 frac hmem)

theorem ra_renderPlain (pat rep : List Char) (hhead : pat.head? = some '{')
    (hne : pat ≠ []) :
    ∀ psegs : List PSeg, (∀ e ∈ psegs, goodPSegB e = true) →
      replaceAll pat rep (renderPlain pat psegs) = renderPlainOut rep psegs := by
  intro psegs
  induction psegs with
  | nil =>
    intro _
    simp [renderPlain, renderPlainOut, replaceAll, replaceAllF]
  | cons e rest ih =>
    intro hgood
    have hrest := fun x hx => hgood x (List.mem_cons_of_mem _ hx)
    cases e with
    | lit s =>
      have hs : '{' ∉ s := by
        have := hgood (PSeg.lit s) (List.mem_cons_self _ _)
        simpa [goodPSegB] using this
      have h1 : renderPlain pat (PSeg.lit s :: rest) = s ++ renderPlain pat rest := by
        simp [renderPlain, renderPSeg]
      rw [h1, replaceAll_append_lit _ _ s hhead hs _, ih hrest]
      simp [renderPlainOut, renderPSeg]
    | tok =>
      have h1 : renderPlain pat (PSeg.tok :: rest) = pat ++ renderPlain pat rest := by
        simp [renderPlain, renderPSeg]
      rw [h1, replaceAll_pfx _ _ _ hne, ih hrest]
      simp [renderPlainOut, renderPSeg]

theorem renderPlainOut_cons (rep : List Char) (e : PSeg) (rest : List PSeg) :
    renderPlainOut rep (e :: rest) = renderPSeg rep e ++ renderPlainOut rep rest := by
  simp [renderPlainOut]

theorem renderIdOut_cons (u sid : List Char) (e : IdSeg) (rest : List IdSeg) :
    renderIdOut u sid (e :: rest) =
      (match e with
       | IdSeg.lit s => s
       | IdSeg.uuidTok => u
       | IdSeg.shortidTok => sid) ++ renderIdOut u sid rest := by
  simp [renderIdOut]

/-- C10: within one identifier pass, one UUID is generated and replaces
every uuid token, and one short identifier is generated and replaces every
shortid token; the short identifier has 8 characters whenever the random
fraction supplies at least 8 digits, and the UUID has 36 characters. -/
theorem c10_uuid_shortid_same_per_call (g16 : Nat → Fin 16) (frac : List Char)
    (segs : List IdSeg)
    (hgood : ∀ e ∈ segs, goodIdSegB e = true)
    (hfrac : '{' ∉ frac) (hlen : 8 ≤ frac.length) :
    processIDPlaceholders g16 frac (renderId segs) =
      renderIdOut (generateUUID g16) (generateShortId frac) segs ∧
    (generateShortId frac).length = 8 ∧ (generateUUID g16).length = 36 := by
  refine ⟨?_, generateShortId_length frac hlen, generateUUID_length g16⟩
  unfold processIDPlaceholders
  simp only []
  have hstep1 : ∀ segs2 : List IdSeg, (∀ e ∈ segs2, goodIdSegB e = true) →
      replaceAll (plainTok "uuid".data) (generateUUID g16) (renderId segs2) =
        renderPlain (plainTok "shortid".data) (segs2.map (idToPSeg (generateUUID g16))) := by
    intro segs2
    induction segs2 with
    | nil =>
      intro _
      simp [renderId, renderPlain, replaceAll, replaceAllF]
    | cons e rest ih =>
      intro hg
      have hrest := fun x hx => hg x (List.mem_cons_of_mem _ hx)
      cases e with
      | lit s =>
        have hs : '{' ∉ s := by
          have := hg (IdSeg.lit s) (List.mem_cons_self _ _)
          simpa [goodIdSegB] using this
        have h1 : renderId (IdSeg.lit s :: rest) = s ++ renderId rest := by
          simp [renderId, renderIdSeg]
        rw [h1, replaceAll_append_lit _ _ s (by decide) hs _, ih hrest]
        simp [renderPlain, idToPSeg, renderPSeg]
      | uuidTok =>
        have h1 : renderId (IdSeg.uuidTok :: rest) = plainTok "uuid".data ++ renderId rest := by
          simp [renderId, renderIdSeg]
        rw [h1, replaceAll_pfx _ _ _ (by decide), ih hrest]
        simp [renderPlain, idToPSeg, renderPSeg]
      | shortidTok =>
        have h1 : renderId (IdSeg.shortidTok :: rest) =
            '{' :: (("shortid".data ++ ['}']) ++ renderId rest) := by
          simp [renderId, renderIdSeg, plainTok]
        have h0 : (plainTok "uuid".data).isPrefixOf
            ('{' :: (("shortid".data ++ ['}']) ++ renderId rest)) = false := by
          simp [plainTok, List.isPrefixOf]
        rw [h1, replaceAll_skip_head _ _ '{' _ _ h0 (by decide) (by decide), ih hrest]
        simp [renderPlain, idToPSeg, renderPSeg, plainTok]
  rw [hstep1 segs hgood]
  have hgood2 : ∀ e ∈ segs.map (idToPSeg (generateUUID g16)), goodPSegB e = true := by
    intro e he
    rw [List.mem_map] at he
    obtain ⟨x, hx, rfl⟩ := he
    cases x with
    | lit s =>
      have := hgood (IdSeg.lit s) hx
      simpa [goodIdSegB, idToPSeg, goodPSegB] using this
    | uuidTok =>
      simp only [idToPSeg, goodPSegB, decide_eq_true_eq]
      exact generateUUID_no_brace g16
    | shortidTok => simp [idToPSeg, goodPSegB]
  rw [ra_renderPlain _ _ (by decide) (by decide) _ hgood2]
  have hnb : '{' ∉ renderPlainOut (generateShortId frac) (segs.map (idToPSeg (generateUUID g16))) := by
    intro hmem
    unfold renderPlainOut at hmem
    rw [List.mem_flatten] at hmem
    obtain ⟨l, hl, hml⟩ := hmem
    rw [List.mem_map] at hl
    obtain ⟨x, hx, rfl⟩ := hl
    cases x with
    | lit s =>
      have hgx := hgood2 (PSeg.lit s) hx
      simp only [goodPSegB, decide_eq_true_eq] at hgx
      simp only [renderPSeg] at hml
      exact hgx hml
    | tok =>
      simp only [renderPSeg] at hml
      exact generateShortId_no_brace frac hfrac hml
  unfold scanReplace
  rw [scanTok_nil_no_brace _ _ _ hnb]
  simp only [List.foldl_nil]
  have hfinal : ∀ s2 : List IdSeg,
      renderPlainOut (generateShortId frac) (s2.map (idToPSeg (generateUUID g16))) =
        renderIdOut (generateUUID g16) (generateShortId frac) s2 := by
    intro s2
    induction s2 with
    | nil => rfl
    | cons e rest ih =>
      rw [List.map_cons, renderPlainOut_cons, renderIdOut_cons, ih]
      cases e <;> rfl
  exact hfinal segs

theorem c10_witness :
    ((∀ e ∈ ([IdSeg.uuidTok, IdSeg.lit "-".data, IdSeg.uuidTok, IdSeg.shortidTok] : List IdSeg),
        goodIdSegB e = true) ∧
     '{' ∉ ("k9z3q1mw".data) ∧ 8 ≤ ("k9z3q1mw".data).length) ∧
    (processIDPlaceholders (fun i => (Fin.ofNat i : Fin 16)) ("k9z3q1mw".data)
        (renderId [IdSeg.uuidTok, IdSeg.lit "-".data, IdSeg.uuidTok, IdSeg.shortidTok]) =
      renderIdOut (generateUUID (fun i => (Fin.ofNat i : Fin 16)))
        (generateShortId ("k9z3q1mw".data))
        [IdSeg.uuidTok, IdSeg.lit "-".data, IdSeg.uuidTok, IdSeg.shortidTok] ∧
     (generateShortId ("k9z3q1mw".data)).length = 8 ∧
     (generateUUID (fun i => (Fin.ofNat i : Fin 16))).length = 36) :=
  ⟨⟨by decide, by decide, by decide⟩,
   c10_uuid_shortid_same_per_call (fun i => (Fin.ofNat i : Fin 16)) ("k9z3q1mw".data)
     [IdSeg.uuidTok, IdSeg.lit "-".data, IdSeg.uuidTok, IdSeg.shortidTok]
     (by decide) (by decide) (by decide)⟩

/-! ## The date pass and the curly-token collision -/

/-- C1 fails on the code: the date pass substitutes the bare second letter
inside the shortid token, so the token does not survive date substitution.
At a clock reading with 45 seconds the template consisting of the shortid
token alone is rewritten into a different string that no longer contains the
token. -/
theorem c1_date_pass_rewrites_curly_token :
    processDateTokens ⟨2025, 3, 24, 4, 15, 30, 45, 123, 114, 17⟩ ("\x7bshortid\x7d".data) =
      "\x7b45hortid\x7d".data ∧
    "\x7b45hortid\x7d".data ≠ "\x7bshortid\x7d".data := by
  constructor
  · decide
  · decide

/-- C4 fails on the code in its verbatim half: the full pipeline returns a
string on this input, but the malformed unixtime token with base 1 is not
left verbatim, because the date pass rewrites the bare minute letter inside
it. At a clock reading with 30 minutes the whole-template expansion maps the
token to a different string. -/
theorem c4_malformed_token_not_left_verbatim :
    processTemplate ⟨2025, 3, 24, 4, 15, 30, 45, 123, 114, 17⟩ 1700000000
        (fun i => (Fin.ofNat i : Fin 62)) 0 (fun i => (Fin.ofNat i : Fin 16))
        ("k9z3q1mw".data) ⟨1, []⟩ ("\x7bunixtime:1\x7d".data) =
      ("\x7bunixti30e:1\x7d".data, ⟨2, []⟩) ∧
    "\x7bunixti30e:1\x7d".data ≠ "\x7bunixtime:1\x7d".data := by
  constructor
  · decide
  · decide
